import Mathlib

/-!
Verification development for the randomness-beacon gossip core
(`client/randomness-beacon/src/lib.rs`).

The wire layer is embedded concretely: SCALE compact length prefixes,
`Message { share: Vec<u8> }`, the envelope `GossipMessage { nonce, message }`
(block hashes modelled as 32-byte strings, as for `H256`), and the stateless
`GossipValidator::validate`.

The coordinator (`RandomnessGossip::poll`) is embedded as a step function on
an explicit state: the `topics` hash map becomes an association list keyed by
nonce, each asynchronous poll result becomes an explicit input, and the
external crypto capability (`RBBox`) and the external `RandomnessShare` codec
become function parameters.  A `panic!`/`assert!`/`unwrap` in the Rust code
becomes an `Except.error` outcome of the step.
-/

namespace RB

/-! ## Bytes and SCALE compact integers -/

/-- Little-endian two-byte split of a value below 2^16. -/
def toLE2 (x : Nat) : List Nat := [x % 256, x / 256 % 256]

/-- Little-endian four-byte split of a value below 2^32. -/
def toLE4 (x : Nat) : List Nat :=
  [x % 256, x / 256 % 256, x / 2 ^ 16 % 256, x / 2 ^ 24 % 256]

/-- SCALE compact encoding of a `u32` value, as produced by
`parity-scale-codec`: single byte mode for values up to `0x3F`, two-byte mode
up to `0x3FFF`, four-byte mode up to `0x3FFFFFFF`, and big-integer mode with a
`0b11` prefix byte followed by four little-endian bytes above that. -/
def compactEncode (n : Nat) : List Nat :=
  if n ≤ 63 then [n * 4]
  else if n ≤ 16383 then toLE2 (n * 4 + 1)
  else if n ≤ 1073741823 then toLE4 (n * 4 + 2)
  else 3 :: toLE4 n

/-- SCALE compact decoding of a `u32` value, returning the value and the
remaining bytes; mirrors `Compact::<u32>::decode` including its canonical
range checks on each mode. -/
def compactDecode : List Nat → Option (Nat × List Nat)
  | [] => none
  | b :: rest =>
    match b % 4 with
    | 0 => some (b / 4, rest)
    | 1 =>
      match rest with
      | b1 :: rest' =>
        let x := (b + 256 * b1) / 4
        if 63 < x ∧ x ≤ 16383 then some (x, rest') else none
      | [] => none
    | 2 =>
      match rest with
      | b1 :: b2 :: b3 :: rest' =>
        let x := (b + 256 * b1 + 2 ^ 16 * b2 + 2 ^ 24 * b3) / 4
        if 16383 < x ∧ x ≤ 1073741823 then some (x, rest') else none
      | _ => none
    | _ =>
      if b / 4 = 0 then
        match rest with
        | b0 :: b1 :: b2 :: b3 :: rest' =>
          let x := b0 + 256 * b1 + 2 ^ 16 * b2 + 2 ^ 24 * b3
          if 1073741823 < x then some (x, rest') else none
        | _ => none
      else none

/-! ## The wire `Message` and `GossipMessage` -/

/-- Wire message `Message { share: ShareBytes }` with `ShareBytes = Vec<u8>`. -/
structure Message where
  share : List Nat
  deriving Repr, DecidableEq

/-- SCALE encoding of `Message`: the single `Vec<u8>` field is a compact
length prefix followed by the raw bytes. -/
def Message.encode (m : Message) : List Nat :=
  compactEncode m.share.length ++ m.share

/-- SCALE decoding of `Message` from a byte string, returning the message and
the unconsumed remainder (SCALE decoding does not require the input to be
consumed entirely). -/
def Message.decode (bs : List Nat) : Option (Message × List Nat) :=
  match compactDecode bs with
  | none => none
  | some (n, rest) =>
    if n ≤ rest.length then some (⟨rest.take n⟩, rest.drop n) else none

/-- Wire envelope `GossipMessage { nonce: Nonce<B>, message: Message }`, with
the block hash nonce modelled as its 32 raw bytes. -/
structure GossipMessageW where
  nonce : List Nat
  message : Message
  deriving Repr, DecidableEq

/-- SCALE decoding of `GossipMessage`: a 32-byte hash followed by a
`Message`. -/
def decodeGossipMessageW (bs : List Nat) : Option (GossipMessageW × List Nat) :=
  if 32 ≤ bs.length then
    match Message.decode (bs.drop 32) with
    | some (m, rest) => some (⟨bs.take 32, m⟩, rest)
    | none => none
  else none

/-- SCALE encoding of `GossipMessage` (used to build concrete wire inputs). -/
def encodeGossipMessageW (gm : GossipMessageW) : List Nat :=
  gm.nonce ++ gm.message.encode

/-! ## The gossip validator -/

/-- Result type of `Validator::validate` restricted to the two variants the
code produces. -/
inductive ValidationResult where
  | processAndKeep (topic : List Nat)
  | discard
  deriving Repr, DecidableEq

/-- `GossipValidator::validate`: decode the envelope from the raw bytes; on
success keep with topic = the decoded nonce, otherwise discard.  The sender
argument is unused in the source, so the embedding is a function of the data
bytes alone. -/
def validate (data : List Nat) : ValidationResult :=
  match decodeGossipMessageW data with
  | some (gm, _) => .processAndKeep gm.nonce
  | none => .discard

/-! ## The coordinator state machine

`RandomnessGossip` is a continuously polled future; each `poll` reads the
results of several inner polls.  The embedding makes those results explicit
inputs of one `tick` step.  Panics in the Rust code (`unwrap` on the two
decodes, the `assert!` on sending randomness) are explicit error outcomes. -/

/-- Result of polling an asynchronous source once. -/
inductive PollNext (α : Type) where
  | pending
  | readyNone
  | readySome (a : α)

/-- The per-round crypto capability `RBBox`, kept opaque: its share type `S`
and randomness type `R` are parameters, and its three operations used by the
coordinator are plain functions. -/
structure RBBox (S R : Type) where
  generate : List Nat → Option S
  verify : S → Bool
  combine : List S → R

/-- The value stored in the `topics` map for a nonce: the optional outgoing
rebroadcast message (`Some` exactly when a local share was produced, carrying
the encoded share), the session's `RBBox`, and the accumulated verified
shares.  The stored incoming receiver is the raw topic stream: the
`filter_map` built in `initialize_nonce` is discarded by `into_inner`, so no
per-session filtering survives; the raw notifications instead arrive as tick
inputs. -/
structure SessionData (S R : Type) where
  outMsg : Option (List Nat)
  rbbox : RBBox S R
  shares : List S

/-- Coordinator state: the configured threshold, the `topics` map as an
association list (keys are nonces; `HashMap` iteration order is unspecified,
the list order is one admissible order), and whether `randomness_tx` is
`Some`. -/
structure GossipState (S R : Type) where
  threshold : Nat
  topics : List (List Nat × SessionData S R)
  txPresent : Bool

/-- Reasons the Rust `poll` panics: `unwrap` on `GossipMessage::decode`,
`unwrap` on `RandomnessShare::decode`, and the `assert!` on
`randomness_tx.send`. -/
inductive PanicKind where
  | envelopeDecode
  | shareDecode
  | sendAssert
  deriving Repr, DecidableEq

/-- `RandomnessGossip::initialize_nonce`: attempt to generate a local share;
if one is produced it is pushed into the fresh shares vector (self-trust, no
verification) and wrapped as the outgoing message, otherwise neither happens.
`encShare` is the external `RandomnessShare` encoder used for the outgoing
message payload. -/
def init_nonce {S R : Type} (encShare : S → List Nat) (rbbox : RBBox S R)
    (nonce : List Nat) : SessionData S R :=
  match rbbox.generate nonce with
  | some share => ⟨some (encShare share), rbbox, [share]⟩
  | none => ⟨none, rbbox, []⟩

/-- Handling of one ready notification on a session's incoming stream, from
the body of the session loop in `RandomnessGossip::poll`: decode the envelope
(`unwrap`), decode the contained share (`unwrap`), verify it; a verified
share is pushed, and if the new length equals the threshold the shares are
combined and, when `randomness_tx` is present, sent (`assert!` on failure).
Returns the updated session, the randomness emitted on the channel (if any),
and whether `combine_shares` ran.  `decShare` is the external
`RandomnessShare` decoder. -/
def processIncoming {S R : Type} (decShare : List Nat → Option S)
    (threshold : Nat) (txPresent sendOk : Bool) (sess : SessionData S R)
    (raw : List Nat) : Except PanicKind (SessionData S R × Option R × Bool) :=
  match decodeGossipMessageW raw with
  | none => .error .envelopeDecode
  | some (gm, _) =>
    match decShare gm.message.share with
    | none => .error .shareDecode
    | some share =>
      if sess.rbbox.verify share then
        let shares' := sess.shares ++ [share]
        if shares'.length = threshold then
          let randomness := sess.rbbox.combine shares'
          if txPresent then
            if sendOk then .ok ({ sess with shares := shares' }, some randomness, true)
            else .error .sendAssert
          else .ok ({ sess with shares := shares' }, none, true)
        else .ok ({ sess with shares := shares' }, none, false)
      else .ok (sess, none, false)

/-- One pass of the session loop in `RandomnessGossip::poll` over the topics
map: each session's incoming stream is polled once; a ready notification is
handled by `processIncoming`, a pending or closed stream leaves the session
unchanged (closure is only logged).  Returns the updated map together with
the list of emitted randomness values and the number of `combine_shares`
calls.  The periodic rebroadcast only republishes the stored outgoing
message on the gossip engine; it touches no coordinator state and is
therefore not tracked.

`sessionStep` is the treatment of one session on one pass: its incoming
stream's poll result is either a ready notification, handled by
`processIncoming`, or pending / closed, which leaves the session unchanged
(closure is only logged). -/
def sessionStep {S R : Type} (decShare : List Nat → Option S)
    (threshold : Nat) (txPresent sendOk : Bool)
    (incoming : List Nat → PollNext (List Nat)) (n : List Nat)
    (sess : SessionData S R) :
    Except PanicKind (SessionData S R × Option R × Bool) :=
  match incoming n with
  | .readySome raw => processIncoming decShare threshold txPresent sendOk sess raw
  | _ => .ok (sess, none, false)

def driveSessions {S R : Type} (decShare : List Nat → Option S)
    (threshold : Nat) (txPresent sendOk : Bool)
    (incoming : List Nat → PollNext (List Nat)) :
    List (List Nat × SessionData S R) →
      Except PanicKind (List (List Nat × SessionData S R) × List R × Nat)
  | [] => .ok ([], [], 0)
  | (n, sess) :: rest =>
    match sessionStep decShare threshold txPresent sendOk incoming n sess with
    | .error e => .error e
    | .ok (sess', em, c) =>
      match driveSessions decShare threshold txPresent sendOk incoming rest with
      | .error e => .error e
      | .ok (rest', ems, cc) =>
        .ok ((n, sess') :: rest', em.toList ++ ems, (if c then 1 else 0) + cc)

/-- Evolution of a single session across successive ticks, one ready incoming
notification per tick, accumulating emissions and `combine_shares` calls. -/
def runSession {S R : Type} (decShare : List Nat → Option S)
    (threshold : Nat) (txPresent sendOk : Bool) :
    SessionData S R → List (List Nat) →
      Except PanicKind (SessionData S R × List R × Nat)
  | sess, [] => .ok (sess, [], 0)
  | sess, raw :: raws =>
    match processIncoming decShare threshold txPresent sendOk sess raw with
    | .error e => .error e
    | .ok (sess', em, c) =>
      match runSession decShare threshold txPresent sendOk sess' raws with
      | .error e => .error e
      | .ok (sessF, ems, cc) =>
        .ok (sessF, em.toList ++ ems, (if c then 1 else 0) + cc)

/-- The environment's answers to the asynchronous polls made during one call
of `RandomnessGossip::poll`: whether the gossip engine's own future
completed, the poll of `randomness_nonce_rx`, the outcome of `get_rbbox`
(the runtime-API and key lookup, external to the coordinator), the poll of
each session's incoming stream, and whether a send on `randomness_tx`
succeeds. -/
structure TickInput (S R : Type) where
  engineDone : Bool
  noncePoll : PollNext (List Nat)
  lookup : List Nat → Option (RBBox S R)
  incoming : List Nat → PollNext (List Nat)
  sendOk : Bool

/-- Outcome of one `poll` call: `terminated` for `Poll::Ready(())`, `next`
for `Poll::Pending` with the updated state and emitted randomness. -/
inductive TickOutcome (S R : Type) where
  | terminated
  | next (st : GossipState S R) (emitted : List R)

/-- The nonce carried by a ready poll of `randomness_nonce_rx`, if any. -/
def nonceOf : PollNext (List Nat) → Option (List Nat)
  | .readySome n => some n
  | _ => none

/-- The new-nonce handling of `RandomnessGossip::poll`: a new nonce whose
topic is already in the map is ignored; otherwise `get_rbbox` is consulted
(the `lookup` input) and, on success, a session built by `init_nonce` is
inserted; on a failed lookup the notification is only logged. -/
def updateTopics {S R : Type} (encShare : S → List Nat)
    (lookup : List Nat → Option (RBBox S R)) (newNonce : Option (List Nat))
    (topics : List (List Nat × SessionData S R)) :
    List (List Nat × SessionData S R) :=
  match newNonce with
  | none => topics
  | some n =>
    if topics.any (fun p => p.1 = n) then topics
    else
      match lookup n with
      | some rbbox => topics ++ [(n, init_nonce encShare rbbox n)]
      | none => topics

/-- One call of `RandomnessGossip::poll`: (1) if the gossip engine finished,
terminate; (2) poll `randomness_nonce_rx`, terminating at once when it is
closed; (3) with no new nonce and an empty topics map, return pending
unchanged; (4) a new nonce is handled by `updateTopics`; (5) every session
is driven by the session loop. -/
def tick {S R : Type} (decShare : List Nat → Option S) (encShare : S → List Nat)
    (input : TickInput S R) (st : GossipState S R) :
    Except PanicKind (TickOutcome S R) :=
  if input.engineDone then .ok .terminated
  else
    match input.noncePoll with
    | .readyNone => .ok .terminated
    | np =>
      let newNonce := nonceOf np
      if newNonce.isNone && st.topics.isEmpty then .ok (.next st [])
      else
        match driveSessions decShare st.threshold st.txPresent input.sendOk
            input.incoming (updateTopics encShare input.lookup newNonce st.topics) with
        | .error e => .error e
        | .ok (topics2, ems, _) => .ok (.next { st with topics := topics2 } ems)

/-- Keys of the topics map. -/
def keysOf {S R : Type} (st : GossipState S R) : List (List Nat) :=
  st.topics.map Prod.fst

/-- Length of the accumulated shares of the session for a nonce, if any. -/
def sharesLenOf {S R : Type} (st : GossipState S R) (n : List Nat) : Option Nat :=
  (st.topics.find? (fun p => p.1 = n)).map (fun p => p.2.shares.length)

/-! ## Concrete instantiations for scenarios

The opaque types are instantiated with `S = R = Nat`: a share is one byte,
its codec is `eShare1`/`dShare1`, verification accepts everything, and
combination returns the number of shares combined. -/

/-- Scenario share decoder: exactly one byte is a share. -/
def dShare1 : List Nat → Option Nat
  | [s] => some s
  | _ => none

/-- Scenario share encoder, inverse of `dShare1`. -/
def eShare1 (s : Nat) : List Nat := [s]

/-- Scenario crypto capability producing no local share. -/
def rbboxNoGen : RBBox Nat Nat :=
  ⟨fun _ => none, fun _ => true, fun l => l.length⟩

/-- Scenario crypto capability producing the local share `s`. -/
def rbboxGen (s : Nat) : RBBox Nat Nat :=
  ⟨fun _ => some s, fun _ => true, fun l => l.length⟩

/-- Scenario crypto capability rejecting every share. -/
def rbboxRej : RBBox Nat Nat :=
  ⟨fun _ => none, fun _ => false, fun l => l.length⟩

/-- Scenario session with no local share and no accumulated shares. -/
def sessEx : SessionData Nat Nat := ⟨none, rbboxNoGen, []⟩

/-- Scenario session whose capability rejects every share. -/
def sessRej : SessionData Nat Nat := ⟨none, rbboxRej, []⟩

/-- Wire bytes of an envelope with an all-zero 32-byte nonce and a one-byte
share payload `s`; passes `validate` and decodes as share `s`. -/
def rawShare (s : Nat) : List Nat := List.replicate 32 0 ++ [4, s]

/-- Wire bytes of an envelope with an all-zero 32-byte nonce and an empty
share payload; passes `validate` but its share bytes fail `dShare1`. -/
def rawEmptyShare : List Nat := List.replicate 32 0 ++ [0]

/-- Two-tick scenario for the combination/emission behaviour: threshold 1, a
session for nonce `[0]` created on the first tick with a locally generated
share, and one verified incoming share delivered on the second tick.
Returns the emissions of both ticks and the final share count of the
session. -/
def twoTickRun : Except PanicKind (List Nat × Option Nat) :=
  let in1 : TickInput Nat Nat :=
    ⟨false, .readySome [0], fun _ => some (rbboxGen 7), fun _ => .pending, true⟩
  let in2 : TickInput Nat Nat :=
    ⟨false, .pending, fun _ => none, fun _ => .readySome (rawShare 9), true⟩
  match tick dShare1 eShare1 in1 ⟨1, [], true⟩ with
  | .error e => .error e
  | .ok .terminated => .ok ([], none)
  | .ok (.next st1 ems1) =>
    match tick dShare1 eShare1 in2 st1 with
    | .error e => .error e
    | .ok .terminated => .ok (ems1, none)
    | .ok (.next st2 ems2) => .ok (ems1 ++ ems2, sharesLenOf st2 [0])

/-! ## Codec lemmas -/

/-- Compact round trip: decoding the compact encoding of a `u32` value
recovers the value and leaves trailing bytes untouched. -/
theorem compactDecode_compactEncode (n : Nat) (hn : n < 2 ^ 32) (tail : List Nat) :
    compactDecode (compactEncode n ++ tail) = some (n, tail) := by
  unfold compactEncode
  by_cases h1 : n ≤ 63
  · have hm : n * 4 % 4 = 0 := by omega
    have hv : n * 4 / 4 = n := by omega
    simp [h1, compactDecode, hm, hv]
  · by_cases h2 : n ≤ 16383
    · have hm : (n * 4 + 1) % 256 % 4 = 1 := by omega
      have hv : ((n * 4 + 1) % 256 + 256 * ((n * 4 + 1) / 256 % 256)) / 4 = n := by
        omega
      simp [h1, h2, toLE2, compactDecode, hm, hv]
    · by_cases h3 : n ≤ 1073741823
      · have hm : (n * 4 + 2) % 256 % 4 = 2 := by omega
        have hv : ((n * 4 + 2) % 256 + 256 * ((n * 4 + 2) / 256 % 256) +
            2 ^ 16 * ((n * 4 + 2) / 2 ^ 16 % 256) +
            2 ^ 24 * ((n * 4 + 2) / 2 ^ 24 % 256)) / 4 = n := by omega
        simp [h1, h2, h3, toLE4, compactDecode, hm, hv]
        omega
      · have hv : n % 256 + 256 * (n / 256 % 256) + 2 ^ 16 * (n / 2 ^ 16 % 256) +
            2 ^ 24 * (n / 2 ^ 24 % 256) = n := by omega
        simp [h1, h2, h3, toLE4, compactDecode, hv]
        omega

/-! ## Claim C10 -/

/-- C10: for every constructible `Message` m (its share a byte string whose
length fits the `u32` compact length prefix), decoding the encoding of m
yields m again with no bytes left over. -/
theorem c10_message_roundtrip (m : Message) (hlen : m.share.length < 2 ^ 32)
    (_hbytes : ∀ b ∈ m.share, b < 256) :
    Message.decode m.encode = some (m, []) := by
  unfold Message.encode Message.decode
  rw [compactDecode_compactEncode _ hlen]
  simp

/-- Witness for C10 at the concrete message with share bytes `[1, 2, 3]`. -/
theorem c10_message_roundtrip_witness :
    Message.decode (Message.encode ⟨[1, 2, 3]⟩) = some (⟨[1, 2, 3]⟩, []) :=
  c10_message_roundtrip ⟨[1, 2, 3]⟩ (by decide) (by decide)

/-! ## Claim C9 -/

/-- C9: the validator keeps a datum with topic equal to the decoded
envelope's nonce exactly when the datum decodes as a gossip message, and
discards it otherwise.  `validate` is by construction a function of the
datum's bytes alone (the source ignores its sender and context arguments and
mutates no state). -/
theorem c9_validate_characterization (data : List Nat) :
    (∀ t, validate data = .processAndKeep t ↔
      ∃ gm rest, decodeGossipMessageW data = some (gm, rest) ∧ t = gm.nonce) ∧
    (validate data = .discard ↔ decodeGossipMessageW data = none) := by
  unfold validate
  cases h : decodeGossipMessageW data with
  | none => simp
  | some p =>
    refine ⟨fun t => ?_, by simp⟩
    constructor
    · intro ht
      exact ⟨p.1, p.2, rfl, by cases ht; rfl⟩
    · rintro ⟨gm, rest, hgm, htop⟩
      cases hgm
      simp [htop]

/-! ## Structural lemmas about the session step -/

/-- Shape of a non-panicking `processIncoming` step: either nothing happened
(not verified), or exactly one share was appended; in the latter case the
combine flag holds exactly when the new length equals the threshold, the
emission is determined by the combine flag and the presence of the channel,
and a combine with a present channel can only return without panicking when
the send succeeded. -/
theorem processIncoming_spec {S R : Type} {dS : List Nat → Option S}
    {th : Nat} {tx so : Bool} {sess sess' : SessionData S R} {raw : List Nat}
    {em : Option R} {c : Bool}
    (h : processIncoming dS th tx so sess raw = .ok (sess', em, c)) :
    (sess' = sess ∧ em = none ∧ c = false) ∨
    (∃ s, sess' = { sess with shares := sess.shares ++ [s] } ∧
      c = decide (sess.shares.length + 1 = th) ∧
      em = (if sess.shares.length + 1 = th ∧ tx = true then
              some (sess.rbbox.combine (sess.shares ++ [s])) else none) ∧
      (sess.shares.length + 1 = th → tx = true → so = true)) := by
  unfold processIncoming at h
  split at h
  · exact absurd h (by simp)
  next gm _ _ =>
    split at h
    · exact absurd h (by simp)
    next s _ =>
      split at h
      next hver =>
        split at h
        next htx =>
          simp only [List.length_append, List.length_cons, List.length_nil] at h
          split at h
          next hlen =>
            split at h
            next hso =>
              simp only [Except.ok.injEq, Prod.mk.injEq] at h
              obtain ⟨rfl, rfl, rfl⟩ := h
              exact .inr ⟨s, rfl, by simp [hlen], by simp [hlen, htx],
                fun _ _ => hso⟩
            · exact absurd h (by simp)
          next hlen =>
            simp only [Except.ok.injEq, Prod.mk.injEq] at h
            obtain ⟨rfl, rfl, rfl⟩ := h
            exact .inr ⟨s, rfl, by simp [hlen], by simp [hlen],
              fun hlen' _ => absurd hlen' hlen⟩
        next htx =>
          simp only [List.length_append, List.length_cons, List.length_nil] at h
          split at h
          next hlen =>
            simp only [Except.ok.injEq, Prod.mk.injEq] at h
            obtain ⟨rfl, rfl, rfl⟩ := h
            exact .inr ⟨s, rfl, by simp [hlen], by simp [htx],
              fun _ htx' => absurd htx' htx⟩
          next hlen =>
            simp only [Except.ok.injEq, Prod.mk.injEq] at h
            obtain ⟨rfl, rfl, rfl⟩ := h
            exact .inr ⟨s, rfl, by simp [hlen], by simp [hlen],
              fun hlen' _ => absurd hlen' hlen⟩
      next hver =>
        simp only [Except.ok.injEq, Prod.mk.injEq] at h
        obtain ⟨rfl, rfl, rfl⟩ := h
        exact .inl ⟨rfl, rfl, rfl⟩

/-- A session run never loses shares. -/
theorem runSession_mono {S R : Type} {dS : List Nat → Option S} {th : Nat}
    {tx so : Bool} {sess sess' : SessionData S R} {raws : List (List Nat)}
    {ems : List R} {cc : Nat}
    (h : runSession dS th tx so sess raws = .ok (sess', ems, cc)) :
    sess.shares.length ≤ sess'.shares.length := by
  induction raws generalizing sess ems cc with
  | nil =>
    simp only [runSession, Except.ok.injEq, Prod.mk.injEq] at h
    obtain ⟨rfl, -, -⟩ := h
    exact le_refl _
  | cons raw raws ih =>
    simp only [runSession] at h
    split at h
    · exact absurd h (by simp)
    next sess1 em c hp =>
      split at h
      · exact absurd h (by simp)
      next sessF ems2 cc2 hr =>
        simp only [Except.ok.injEq, Prod.mk.injEq] at h
        obtain ⟨rfl, rfl, rfl⟩ := h
        have h2 := ih hr
        rcases processIncoming_spec hp with ⟨rfl, -, -⟩ | ⟨s, rfl, -, -, -⟩
        · exact h2
        · simp only [List.length_append, List.length_cons, List.length_nil] at h2
          omega

/-- A session that already holds at least threshold-many shares never
combines or emits again: the equality check on the new length can never hold
once it has been passed. -/
theorem runSession_saturated {S R : Type} {dS : List Nat → Option S} {th : Nat}
    {tx so : Bool} {sess sess' : SessionData S R} {raws : List (List Nat)}
    {ems : List R} {cc : Nat} (hge : th ≤ sess.shares.length)
    (h : runSession dS th tx so sess raws = .ok (sess', ems, cc)) :
    ems = [] ∧ cc = 0 := by
  induction raws generalizing sess ems cc with
  | nil =>
    simp only [runSession, Except.ok.injEq, Prod.mk.injEq] at h
    obtain ⟨-, rfl, rfl⟩ := h
    exact ⟨rfl, rfl⟩
  | cons raw raws ih =>
    simp only [runSession] at h
    split at h
    · exact absurd h (by simp)
    next sess1 em c hp =>
      split at h
      · exact absurd h (by simp)
      next sessF ems2 cc2 hr =>
        simp only [Except.ok.injEq, Prod.mk.injEq] at h
        obtain ⟨rfl, rfl, rfl⟩ := h
        rcases processIncoming_spec hp with ⟨rfl, rfl, rfl⟩ | ⟨s, rfl, hc, hem, -⟩
        · obtain ⟨rfl, rfl⟩ := ih hge hr
          exact ⟨rfl, rfl⟩
        · have hne : ¬ (sess.shares.length + 1 = th) := by omega
          have hge1 : th ≤ (sess.shares ++ [s]).length := by simp; omega
          obtain ⟨rfl, rfl⟩ := ih hge1 hr
          subst hc
          subst hem
          simp [hne]

/-- A session that starts strictly below the threshold, with the consumer
channel present, combines exactly as often as it emits, and does so exactly
once, namely at the first verified share that brings the count to the
threshold. -/
theorem runSession_below {S R : Type} {dS : List Nat → Option S} {th : Nat}
    {so : Bool} {sess sess' : SessionData S R} {raws : List (List Nat)}
    {ems : List R} {cc : Nat} (hlt : sess.shares.length < th)
    (h : runSession dS th true so sess raws = .ok (sess', ems, cc)) :
    cc = ems.length ∧ ems.length = (if th ≤ sess'.shares.length then 1 else 0) := by
  induction raws generalizing sess ems cc with
  | nil =>
    simp only [runSession, Except.ok.injEq, Prod.mk.injEq] at h
    obtain ⟨rfl, rfl, rfl⟩ := h
    simp [Nat.not_le.mpr hlt]
  | cons raw raws ih =>
    simp only [runSession] at h
    split at h
    · exact absurd h (by simp)
    next sess1 em c hp =>
      split at h
      · exact absurd h (by simp)
      next sessF ems2 cc2 hr =>
        simp only [Except.ok.injEq, Prod.mk.injEq] at h
        obtain ⟨rfl, rfl, rfl⟩ := h
        rcases processIncoming_spec hp with ⟨rfl, rfl, rfl⟩ | ⟨s, rfl, hc, hem, -⟩
        · obtain ⟨rfl, hlen⟩ := ih hlt hr
          simpa using hlen
        · by_cases hth : sess.shares.length + 1 = th
          · have hsat : th ≤ (sess.shares ++ [s]).length := by simp; omega
            obtain ⟨rfl, rfl⟩ := runSession_saturated hsat hr
            have hmono := runSession_mono hr
            have hfin : th ≤ sessF.shares.length := le_trans hsat hmono
            subst hc
            subst hem
            simp [hth, hfin]
          · have hlt1 : (sess.shares ++ [s]).length < th := by simp; omega
            obtain ⟨rfl, hlen⟩ := ih hlt1 hr
            subst hc
            subst hem
            simp [hth] at hlen ⊢
            exact hlen

/-- Shape of a non-panicking pass over one session: the session is unchanged
or exactly one share was appended. -/
theorem sessionStep_spec {S R : Type} {dS : List Nat → Option S} {th : Nat}
    {tx so : Bool} {inc : List Nat → PollNext (List Nat)} {n : List Nat}
    {sess sess' : SessionData S R} {em : Option R} {c : Bool}
    (h : sessionStep dS th tx so inc n sess = .ok (sess', em, c)) :
    sess' = sess ∨ ∃ s, sess' = { sess with shares := sess.shares ++ [s] } := by
  unfold sessionStep at h
  split at h
  · rcases processIncoming_spec h with ⟨rfl, -, -⟩ | ⟨s, rfl, -, -, -⟩
    · exact .inl rfl
    · exact .inr ⟨s, rfl⟩
  · simp only [Except.ok.injEq, Prod.mk.injEq] at h
    obtain ⟨rfl, -, -⟩ := h
    exact .inl rfl

/-- The session loop never changes the keys of the topics map. -/
theorem driveSessions_keys {S R : Type} {dS : List Nat → Option S} {th : Nat}
    {tx so : Bool} {inc : List Nat → PollNext (List Nat)}
    {ts ts' : List (List Nat × SessionData S R)} {ems : List R} {cc : Nat}
    (h : driveSessions dS th tx so inc ts = .ok (ts', ems, cc)) :
    ts'.map Prod.fst = ts.map Prod.fst := by
  induction ts generalizing ts' ems cc with
  | nil =>
    simp only [driveSessions, Except.ok.injEq, Prod.mk.injEq] at h
    obtain ⟨rfl, -, -⟩ := h
    rfl
  | cons p ts ih =>
    obtain ⟨n, sess⟩ := p
    simp only [driveSessions] at h
    split at h
    · exact absurd h (by simp)
    next sess1 em c hstep =>
      split at h
      · exact absurd h (by simp)
      next rest' ems2 cc2 hr =>
        simp only [Except.ok.injEq, Prod.mk.injEq] at h
        obtain ⟨rfl, rfl, rfl⟩ := h
        simp [ih hr]

/-- Every session entering the loop is still present afterwards, under the
same nonce, with at least as many accumulated shares. -/
theorem driveSessions_mem {S R : Type} {dS : List Nat → Option S} {th : Nat}
    {tx so : Bool} {inc : List Nat → PollNext (List Nat)}
    {ts ts' : List (List Nat × SessionData S R)} {ems : List R} {cc : Nat}
    (h : driveSessions dS th tx so inc ts = .ok (ts', ems, cc)) :
    ∀ p ∈ ts, ∃ sd', (p.1, sd') ∈ ts' ∧ p.2.shares.length ≤ sd'.shares.length := by
  induction ts generalizing ts' ems cc with
  | nil => intro p hp; exact absurd hp (by simp)
  | cons q ts ih =>
    obtain ⟨n, sess⟩ := q
    simp only [driveSessions] at h
    split at h
    · exact absurd h (by simp)
    next sess1 em c hstep =>
      split at h
      · exact absurd h (by simp)
      next rest' ems2 cc2 hr =>
        simp only [Except.ok.injEq, Prod.mk.injEq] at h
        obtain ⟨rfl, rfl, rfl⟩ := h
        intro p hp
        rcases List.mem_cons.mp hp with rfl | hmem
        · refine ⟨sess1, List.mem_cons_self .., ?_⟩
          rcases sessionStep_spec hstep with rfl | ⟨s, rfl⟩
          · exact le_refl _
          · simp
        · obtain ⟨sd', hsd', hle⟩ := ih hr p hmem
          exact ⟨sd', List.mem_cons_of_mem _ hsd', hle⟩

/-- Membership in the topic map translates to the `contains_key` test made
by `poll`. -/
theorem any_eq_mem_keys {S R : Type} (ts : List (List Nat × SessionData S R))
    (n : List Nat) :
    ts.any (fun p => p.1 = n) = true ↔ n ∈ ts.map Prod.fst := by
  simp only [List.any_eq_true, decide_eq_true_eq, List.mem_map]

/-- Shape of the new-nonce handling: the topics map is unchanged, or the
notified nonce was absent, its lookup succeeded, and exactly its one new
session was appended. -/
theorem updateTopics_spec {S R : Type} (eS : S → List Nat)
    (lk : List Nat → Option (RBBox S R)) (nn : Option (List Nat))
    (ts : List (List Nat × SessionData S R)) :
    updateTopics eS lk nn ts = ts ∨
    ∃ n rb, nn = some n ∧ n ∉ ts.map Prod.fst ∧ lk n = some rb ∧
      updateTopics eS lk nn ts = ts ++ [(n, init_nonce eS rb n)] := by
  unfold updateTopics
  cases nn with
  | none => exact .inl rfl
  | some n =>
    dsimp only
    by_cases hmem : ts.any (fun p => p.1 = n) = true
    · rw [if_pos hmem]; exact .inl rfl
    · rw [if_neg hmem]
      cases hlk : lk n with
      | none => exact .inl rfl
      | some rb =>
        exact .inr ⟨n, rb, rfl, fun hc => hmem ((any_eq_mem_keys ts n).mpr hc),
          hlk, rfl⟩

/-- A nonce already in the topics map is never inserted again. -/
theorem updateTopics_already {S R : Type} (eS : S → List Nat)
    (lk : List Nat → Option (RBBox S R)) (n : List Nat)
    (ts : List (List Nat × SessionData S R)) (hmem : n ∈ ts.map Prod.fst) :
    updateTopics eS lk (some n) ts = ts := by
  unfold updateTopics
  dsimp only
  rw [if_pos ((any_eq_mem_keys ts n).mpr hmem)]

/-- A fresh nonce whose lookup succeeds gets exactly one session appended. -/
theorem updateTopics_fresh {S R : Type} (eS : S → List Nat)
    (lk : List Nat → Option (RBBox S R)) (n : List Nat) (rb : RBBox S R)
    (ts : List (List Nat × SessionData S R)) (hmem : n ∉ ts.map Prod.fst)
    (hlk : lk n = some rb) :
    updateTopics eS lk (some n) ts = ts ++ [(n, init_nonce eS rb n)] := by
  unfold updateTopics
  dsimp only
  rw [if_neg (fun hc => hmem ((any_eq_mem_keys ts n).mp hc)), hlk]

/-- A fresh nonce whose lookup fails is dropped: no session is created. -/
theorem updateTopics_fresh_miss {S R : Type} (eS : S → List Nat)
    (lk : List Nat → Option (RBBox S R)) (n : List Nat)
    (ts : List (List Nat × SessionData S R)) (hlk : lk n = none) :
    updateTopics eS lk (some n) ts = ts := by
  unfold updateTopics
  dsimp only
  by_cases hmem : ts.any (fun p => p.1 = n) = true
  · rw [if_pos hmem]
  · rw [if_neg hmem, hlk]

/-- Characterization of a `poll` call returning `Poll::Pending`: the engine
was alive, the nonce source was not reported closed, and the resulting
topics, emissions and combine count come from the session loop applied to
the topics map after new-nonce handling; configuration is unchanged. -/
theorem tick_next_shape {S R : Type} {dS : List Nat → Option S}
    {eS : S → List Nat} {input : TickInput S R} {st st' : GossipState S R}
    {ems : List R}
    (h : tick dS eS input st = .ok (.next st' ems)) :
    input.engineDone = false ∧
    st'.threshold = st.threshold ∧ st'.txPresent = st.txPresent ∧
    ∃ cc, driveSessions dS st.threshold st.txPresent input.sendOk input.incoming
        (updateTopics eS input.lookup (nonceOf input.noncePoll) st.topics) =
      .ok (st'.topics, ems, cc) := by
  unfold tick at h
  cases hEng : input.engineDone with
  | true => rw [hEng] at h; exact absurd h (by simp)
  | false =>
    rw [hEng] at h
    simp only [if_false, Bool.false_eq_true] at h
    refine ⟨rfl, ?_⟩
    cases hnp : input.noncePoll with
    | readyNone => rw [hnp] at h; exact absurd h (by simp)
    | pending =>
      rw [hnp] at h
      simp only [nonceOf] at h ⊢
      by_cases hempty : st.topics.isEmpty = true
      · simp only [Option.isNone_none, hempty, Bool.and_self, if_true] at h
        simp only [Except.ok.injEq, TickOutcome.next.injEq] at h
        obtain ⟨rfl, rfl⟩ := h
        have htopics : st.topics = [] := by
          simpa [List.isEmpty_iff] using hempty
        refine ⟨rfl, rfl, 0, ?_⟩
        rw [show updateTopics eS input.lookup none st.topics = st.topics from rfl,
          htopics]
        simp [driveSessions]
      · simp only [Option.isNone_none, hempty, Bool.and_false, if_false,
          Bool.true_and, Bool.false_eq_true] at h
        split at h
        · exact absurd h (by simp)
        next topics2 ems2 cc2 hdrive =>
          simp only [Except.ok.injEq, TickOutcome.next.injEq] at h
          obtain ⟨rfl, rfl⟩ := h
          exact ⟨rfl, rfl, cc2, hdrive⟩
    | readySome n =>
      rw [hnp] at h
      simp only [nonceOf] at h ⊢
      simp only [Option.isNone_some, Bool.false_and, if_false,
        Bool.false_eq_true] at h
      split at h
      · exact absurd h (by simp)
      next topics2 ems2 cc2 hdrive =>
        simp only [Except.ok.injEq, TickOutcome.next.injEq] at h
        obtain ⟨rfl, rfl⟩ := h
        exact ⟨rfl, rfl, cc2, hdrive⟩

/-! ## Claim C4 -/

/-- C4 counterexample: with one active session in the map and the new-nonce
source reporting closed, `poll` still returns `Poll::Ready(())` — the code
terminates unconditionally on `Poll::Ready(None)` from
`randomness_nonce_rx`, without consulting the session map, contradicting the
claim that it proceeds to drive remaining sessions. -/
theorem c4_counterexample :
    tick dShare1 eShare1
        ⟨false, .readyNone, fun _ => none, fun _ => .pending, true⟩
        (⟨2, [([0], sessEx)], true⟩ : GossipState Nat Nat) = .ok .terminated ∧
    (⟨2, [([0], sessEx)], true⟩ : GossipState Nat Nat).topics ≠ [] :=
  ⟨rfl, by simp⟩

/-- C4 (amended): when the new-nonce notification source is closed, the
coordinator terminates unconditionally, regardless of how many sessions
remain active (only the prior gossip-engine completion check precedes it). -/
theorem c4_close_always_terminates {S R : Type} (dS : List Nat → Option S)
    (eS : S → List Nat) (input : TickInput S R) (st : GossipState S R)
    (hEng : input.engineDone = false) (hnp : input.noncePoll = .readyNone) :
    tick dS eS input st = .ok .terminated := by
  unfold tick
  rw [hEng, hnp]
  rfl

/-- Witness for the amended C4 at a state with a live session. -/
theorem c4_close_always_terminates_witness :
    tick dShare1 eShare1
        ⟨false, .readyNone, fun _ => some rbboxNoGen,
          fun _ => .readySome (rawShare 3), false⟩
        (⟨5, [([1], sessEx)], false⟩ : GossipState Nat Nat) = .ok .terminated :=
  c4_close_always_terminates dShare1 eShare1 _ _ rfl rfl

/-! ## Claim C3 -/

/-- C3 counterexample: threshold 1, one active session, a verified incoming
share arrives and the consumer channel send fails; the `assert!` in `poll`
panics, aborting the whole coordinator poll rather than only the single
emission attempt — the coordinator does not continue driving its sessions. -/
theorem c3_counterexample :
    tick dShare1 eShare1
        ⟨false, .pending, fun _ => none, fun _ => .readySome (rawShare 9), false⟩
        (⟨1, [([0], sessEx)], true⟩ : GossipState Nat Nat) =
      .error .sendAssert :=
  rfl

/-- C3 (amended): if sending a combined Randomness value fails because the
consumer is gone, the `assert!` panics: the session step — and with it the
whole coordinator poll — aborts instead of continuing. -/
theorem c3_send_failure_panics {S R : Type} (dS : List Nat → Option S)
    (th : Nat) (sess : SessionData S R) (raw : List Nat)
    (gm : GossipMessageW) (rest : List Nat) (s : S)
    (hdec : decodeGossipMessageW raw = some (gm, rest))
    (hs : dS gm.message.share = some s)
    (hver : sess.rbbox.verify s = true)
    (hth : sess.shares.length + 1 = th) :
    processIncoming dS th true false sess raw = .error .sendAssert := by
  unfold processIncoming
  rw [hdec]
  dsimp only
  rw [hs]
  dsimp only
  rw [if_pos hver]
  have hlen : (sess.shares ++ [s]).length = th := by simp [hth]
  rw [if_pos hlen]
  rfl

/-- Witness for the amended C3. -/
theorem c3_send_failure_panics_witness :
    processIncoming dShare1 1 true false sessEx (rawShare 9) =
      .error .sendAssert :=
  c3_send_failure_panics dShare1 1 sessEx (rawShare 9)
    ⟨List.replicate 32 0, ⟨[9]⟩⟩ [] 9 rfl rfl rfl rfl

/-! ## Claim C2 -/

/-- C2 (code bug): a gossip datum that passes the validator (it decodes as
an envelope, so it is delivered on the session's topic) but whose contained
share bytes fail to decode makes `poll` panic through
`RandomnessShare::decode(..).unwrap()`, aborting the coordinator — the
per-session `filter_map` that was meant to skip malformed messages is
discarded by `into_inner` in `initialize_nonce`, and a malformed envelope
reaching the session loop likewise panics through
`GossipMessage::decode(..).unwrap()`.  This contradicts the claim (and the
code's own vestigial skip-and-log logic) that malformed payloads are
non-fatal, leave the collection unchanged and never abort the coordinator. -/
theorem c2_malformed_payload_panics :
    tick dShare1 eShare1
        ⟨false, .pending, fun _ => none, fun _ => .readySome rawEmptyShare, true⟩
        (⟨2, [([0], sessEx)], true⟩ : GossipState Nat Nat) =
      .error .shareDecode ∧
    validate rawEmptyShare = .processAndKeep (List.replicate 32 0) ∧
    processIncoming dShare1 2 true true sessEx [1, 2, 3] =
      .error .envelopeDecode :=
  ⟨rfl, rfl, rfl⟩

/-! ## Claim C5 -/

/-- C5: a tick that returns pending preserves distinctness of the nonces
keying the session map; a notification for a fresh nonce with a successful
lookup adds exactly that one key; a repeated notification for a nonce whose
session exists leaves the keys unchanged — so the map never holds more than
one session per nonce. -/
theorem c5_one_session_per_nonce {S R : Type} (dS : List Nat → Option S)
    (eS : S → List Nat) (input : TickInput S R) (st st' : GossipState S R)
    (ems : List R) (n : List Nat)
    (htick : tick dS eS input st = .ok (.next st' ems)) :
    ((keysOf st).Nodup → (keysOf st').Nodup) ∧
    (input.noncePoll = .readySome n → n ∉ keysOf st →
      (input.lookup n).isSome → keysOf st' = keysOf st ++ [n]) ∧
    (input.noncePoll = .readySome n → n ∈ keysOf st →
      keysOf st' = keysOf st) := by
  obtain ⟨-, -, -, cc, hdrive⟩ := tick_next_shape htick
  have hkeys : keysOf st' =
      (updateTopics eS input.lookup (nonceOf input.noncePoll) st.topics).map
        Prod.fst :=
    driveSessions_keys hdrive
  refine ⟨?_, ?_, ?_⟩
  · intro hnd
    rcases updateTopics_spec eS input.lookup (nonceOf input.noncePoll)
        st.topics with hsame | ⟨n0, rb, -, hfresh, -, happ⟩
    · rw [hkeys, hsame]; exact hnd
    · rw [hkeys, happ]
      simp only [List.map_append, List.map_cons, List.map_nil]
      rw [List.nodup_append]
      refine ⟨hnd, List.nodup_singleton _, ?_⟩
      intro a ha hb
      simp only [List.mem_singleton] at hb
      subst hb
      exact hfresh ha
  · intro hnp hfresh hlk
    obtain ⟨rb, hrb⟩ := Option.isSome_iff_exists.mp hlk
    have hnn : nonceOf input.noncePoll = some n := by rw [hnp]; rfl
    rw [hkeys, hnn, updateTopics_fresh eS input.lookup n rb st.topics hfresh hrb]
    simp [keysOf]
  · intro hnp hmem
    have hnn : nonceOf input.noncePoll = some n := by rw [hnp]; rfl
    rw [hkeys, hnn, updateTopics_already eS input.lookup n st.topics hmem]
    rfl

/-- Witness for C5: a fresh nonce with a successful lookup yields a map
keyed by exactly that nonce. -/
theorem c5_one_session_per_nonce_witness :
    keysOf (⟨2, [([1], sessEx)], true⟩ : GossipState Nat Nat) =
      keysOf (⟨2, [], true⟩ : GossipState Nat Nat) ++ [[1]] :=
  (c5_one_session_per_nonce dShare1 eShare1
      ⟨false, .readySome [1], fun _ => some rbboxNoGen, fun _ => .pending, true⟩
      ⟨2, [], true⟩ ⟨2, [([1], sessEx)], true⟩ [] [1] rfl).2.1
    rfl (by simp [keysOf]) rfl

/-! ## Claim C6 -/

/-- C6: a new-nonce notification whose key/verification lookup returns no
material creates no session (the keys are unchanged, so the fresh nonce
stays absent), and a later notification for the same nonce, once the lookup
succeeds, creates the session. -/
theorem c6_lookup_miss_then_retry {S R : Type} (dS : List Nat → Option S)
    (eS : S → List Nat) (in1 in2 : TickInput S R) (st st' : GossipState S R)
    (ems1 : List R) (n : List Nat)
    (h1 : tick dS eS in1 st = .ok (.next st' ems1))
    (hn1 : in1.noncePoll = .readySome n) (hl1 : in1.lookup n = none)
    (hfresh : n ∉ keysOf st) :
    n ∉ keysOf st' ∧
    ∀ st'' ems2, tick dS eS in2 st' = .ok (.next st'' ems2) →
      in2.noncePoll = .readySome n → (in2.lookup n).isSome →
      n ∈ keysOf st'' := by
  obtain ⟨-, -, -, cc1, hdrive1⟩ := tick_next_shape h1
  have hnn1 : nonceOf in1.noncePoll = some n := by rw [hn1]; rfl
  have hkeys1 : keysOf st' = keysOf st := by
    have := driveSessions_keys hdrive1
    rw [hnn1, updateTopics_fresh_miss eS in1.lookup n st.topics hl1] at this
    exact this
  have habsent : n ∉ keysOf st' := hkeys1 ▸ hfresh
  refine ⟨habsent, ?_⟩
  intro st'' ems2 h2 hn2 hlk2
  obtain ⟨-, -, -, cc2, hdrive2⟩ := tick_next_shape h2
  obtain ⟨rb, hrb⟩ := Option.isSome_iff_exists.mp hlk2
  have hnn2 : nonceOf in2.noncePoll = some n := by rw [hn2]; rfl
  have hkeys2 : keysOf st'' = keysOf st' ++ [n] := by
    have := driveSessions_keys hdrive2
    rw [hnn2,
      updateTopics_fresh eS in2.lookup n rb st'.topics habsent hrb] at this
    simpa [keysOf] using this
  rw [hkeys2]
  simp

/-- Witness for C6: the lookup fails on the first notification for `[1]`
(no session appears), then succeeds on the second (the session appears). -/
theorem c6_lookup_miss_then_retry_witness :
    [1] ∉ keysOf (⟨2, [], true⟩ : GossipState Nat Nat) ∧
    [1] ∈ keysOf (⟨2, [([1], sessEx)], true⟩ : GossipState Nat Nat) := by
  have h := c6_lookup_miss_then_retry dShare1 eShare1
    ⟨false, .readySome [1], fun _ => none, fun _ => .pending, true⟩
    ⟨false, .readySome [1], fun _ => some rbboxNoGen, fun _ => .pending, true⟩
    ⟨2, [], true⟩ ⟨2, [], true⟩ [] [1] rfl rfl rfl (by simp [keysOf])
  exact ⟨h.1, h.2 ⟨2, [([1], sessEx)], true⟩ [] rfl rfl rfl⟩

/-! ## Claim C7 -/

/-- C7: the threshold test is made only when a verified incoming share is
appended, and only as an equality on the new length; a session whose
locally generated share is counted at creation starts with one share, so
whenever the threshold is at most 1 the count passes the threshold without
the equality ever holding at a check point, and no combination or emission
ever occurs for that nonce. -/
theorem c7_local_share_never_combines {S R : Type} (dS : List Nat → Option S)
    (eS : S → List Nat) (rbbox : RBBox S R) (nonce : List Nat) (s : S)
    (th : Nat) (tx so : Bool) (raws : List (List Nat))
    (sess' : SessionData S R) (ems : List R) (cc : Nat)
    (hgen : rbbox.generate nonce = some s) (hth : th ≤ 1)
    (hrun : runSession dS th tx so (init_nonce eS rbbox nonce) raws =
      .ok (sess', ems, cc)) :
    ems = [] ∧ cc = 0 ∧ th ≤ sess'.shares.length := by
  have hinit : init_nonce eS rbbox nonce = ⟨some (eS s), rbbox, [s]⟩ := by
    unfold init_nonce; rw [hgen]
  rw [hinit] at hrun
  have hge : th ≤ ([s] : List S).length := by simp; omega
  obtain ⟨hems, hcc⟩ := runSession_saturated hge hrun
  exact ⟨hems, hcc, le_trans hge (runSession_mono hrun)⟩

/-- Witness for C7: threshold 1 with a produced local share; an incoming
verified share brings the count to 2, past the threshold, with no
combination and no emission. -/
theorem c7_local_share_never_combines_witness :
    ([] : List Nat) = [] ∧ (0 : Nat) = 0 ∧
      1 ≤ (⟨some [7], rbboxGen 7, [7, 9]⟩ : SessionData Nat Nat).shares.length :=
  c7_local_share_never_combines dShare1 eShare1 (rbboxGen 7) [0] 7 1 true true
    [rawShare 9] ⟨some [7], rbboxGen 7, [7, 9]⟩ [] 0 rfl (by decide) rfl

/-! ## Claim C1 -/

/-- C1 counterexample: with threshold 1 and a locally generated share, the
session's verified-share count reaches (and passes) the threshold, yet the
coordinator never combines or emits: across the creation tick and a tick
delivering a verified share, no randomness is emitted although the final
count is 2 with threshold 1 — refuting that a Randomness value is emitted
exactly once at the first instant the count reaches the threshold. -/
theorem c1_counterexample : twoTickRun = .ok ([], some 2) := rfl

/-- C1 (amended): for a session whose share count at creation is strictly
below the threshold (and with the consumer channel present), the
coordinator combines and emits exactly once, at the first verified incoming
share that brings the count to the threshold; shares arriving afterwards
are still appended but never trigger a second combination or emission. -/
theorem c1_emit_once_from_below {S R : Type} (dS : List Nat → Option S)
    (th : Nat) (so : Bool) (sess sess' : SessionData S R)
    (raws : List (List Nat)) (ems : List R) (cc : Nat)
    (hlt : sess.shares.length < th)
    (h : runSession dS th true so sess raws = .ok (sess', ems, cc)) :
    cc = ems.length ∧
    ems.length = (if th ≤ sess'.shares.length then 1 else 0) :=
  runSession_below hlt h

/-- Witness for the amended C1: threshold 1, empty initial session, two
verified incoming shares; exactly one combination and one emission, at the
first share. -/
theorem c1_emit_once_from_below_witness :
    (1 : Nat) = ([1] : List Nat).length ∧
    ([1] : List Nat).length =
      (if 1 ≤ (⟨none, rbboxNoGen, [9, 5]⟩ : SessionData Nat Nat).shares.length
        then 1 else 0) :=
  c1_emit_once_from_below dShare1 1 true sessEx ⟨none, rbboxNoGen, [9, 5]⟩
    [rawShare 9, rawShare 5] [1] 1 (by decide) rfl

/-! ## Claim C8 -/

/-- C8: an incoming share that decodes and passes verification grows the
session's collection by exactly one (appended at the end); a share failing
verification leaves the session unchanged; and across a whole coordinator
tick every session's collection length never decreases. -/
theorem c8_collection_growth {S R : Type} (dS : List Nat → Option S)
    (eS : S → List Nat) (th : Nat) (tx : Bool) (sess : SessionData S R)
    (raw : List Nat) (gm : GossipMessageW) (rest : List Nat) (s : S)
    (input : TickInput S R) (st st' : GossipState S R) (ems : List R)
    (hdec : decodeGossipMessageW raw = some (gm, rest))
    (hs : dS gm.message.share = some s) :
    (sess.rbbox.verify s = true →
      processIncoming dS th tx true sess raw =
        .ok ({ sess with shares := sess.shares ++ [s] },
          (if sess.shares.length + 1 = th ∧ tx = true then
            some (sess.rbbox.combine (sess.shares ++ [s])) else none),
          decide (sess.shares.length + 1 = th))) ∧
    (sess.rbbox.verify s = false →
      processIncoming dS th tx true sess raw = .ok (sess, none, false)) ∧
    (tick dS eS input st = .ok (.next st' ems) →
      ∀ p ∈ st.topics, ∃ sd', (p.1, sd') ∈ st'.topics ∧
        p.2.shares.length ≤ sd'.shares.length) := by
  refine ⟨?_, ?_, ?_⟩
  · intro hver
    unfold processIncoming
    rw [hdec]
    dsimp only
    rw [hs]
    dsimp only
    rw [if_pos hver]
    simp only [List.length_append, List.length_cons, List.length_nil]
    by_cases hlen : sess.shares.length + 1 = th
    · rw [if_pos hlen]
      cases tx with
      | true => simp [hlen]
      | false => simp [hlen]
    · rw [if_neg hlen]
      simp [hlen]
  · intro hver
    unfold processIncoming
    rw [hdec]
    dsimp only
    rw [hs]
    dsimp only
    rw [if_neg (by simp [hver])]
  · intro htick p hp
    obtain ⟨-, -, -, cc, hdrive⟩ := tick_next_shape htick
    have hmem : p ∈ updateTopics eS input.lookup (nonceOf input.noncePoll)
        st.topics := by
      rcases updateTopics_spec eS input.lookup (nonceOf input.noncePoll)
          st.topics with hsame | ⟨n0, rb, -, -, -, happ⟩
      · rw [hsame]; exact hp
      · rw [happ]; exact List.mem_append_left _ hp
    exact driveSessions_mem hdrive p hmem

/-- Witness for C8: a verified share appended (threshold not yet reached),
a rejected share leaving the session unchanged, and a tick preserving a
session's share count. -/
theorem c8_collection_growth_witness :
    processIncoming dShare1 2 true true sessEx (rawShare 9) =
      .ok (⟨none, rbboxNoGen, [9]⟩, none, false) ∧
    processIncoming dShare1 2 true true sessRej (rawShare 9) =
      .ok (sessRej, none, false) ∧
    (∃ sd', (([0], sd') ∈
        [([0], (⟨none, rbboxNoGen, [9]⟩ : SessionData Nat Nat))] ∧
      (⟨none, rbboxNoGen, [9]⟩ : SessionData Nat Nat).shares.length ≤
        sd'.shares.length)) := by
  have h1 := (c8_collection_growth dShare1 eShare1 2 true sessEx (rawShare 9)
    ⟨List.replicate 32 0, ⟨[9]⟩⟩ [] 9
    ⟨false, .pending, fun _ => none, fun _ => .pending, true⟩
    ⟨2, [([0], ⟨none, rbboxNoGen, [9]⟩)], true⟩
    ⟨2, [([0], ⟨none, rbboxNoGen, [9]⟩)], true⟩ [] rfl rfl)
  refine ⟨h1.1 rfl, ?_, ?_⟩
  · exact (c8_collection_growth dShare1 eShare1 2 true sessRej (rawShare 9)
      ⟨List.replicate 32 0, ⟨[9]⟩⟩ [] 9
      ⟨false, .pending, fun _ => none, fun _ => .pending, true⟩
      ⟨2, [], true⟩ ⟨2, [], true⟩ [] rfl rfl).2.1 rfl
  · exact h1.2.2 rfl ([0], ⟨none, rbboxNoGen, [9]⟩) (by simp)

end RB
